import Mathlib

/-
Shallow embedding of the query, traversal and matching engine of
marxoft/qhtmlparser (src/qhtmlparser.cpp, src/qhtmlparser.h).

The tidy library and Qt are external collaborators: the tidy tree is
modelled as an inductive tree of nodes, the QRegExp based tests of
matchAttribute are abstracted as function parameters, and the Qt string
and QFlags operations are modelled directly.
-/

namespace QHtmlParser

/-! ### Match flags (values from the MatchFlag enum in qhtmlparser.h). -/

def MatchExactly : Nat := 0x0000
def MatchContains : Nat := 0x0001
def MatchStartsWith : Nat := 0x0002
def MatchEndsWith : Nat := 0x0004
def MatchRegExp : Nat := 0x0008
def MatchWildcard : Nat := 0x0010
def MatchCaseSensitive : Nat := 0x0020

/-- The MatchType enum: MatchAll = 0, MatchAny = 1. -/
inductive MatchType where
  | matchAll
  | matchAny
deriving DecidableEq

/-- QFlags.testFlag from Qt: (i & f) == f, and for a zero flag the whole
flag value must itself be zero. -/
def testFlag (flags flag : Nat) : Bool :=
  (flags &&& flag == flag) && (flag != 0 || flags == flag)

/-! ### Qt string operations under a case sensitivity choice.
Qt CaseInsensitive comparison is modelled by lowercase folding of the
character sequence. -/

/-- The character sequence of a string, folded to lowercase when the
comparison is case insensitive. -/
def qtFold (cs : Bool) (s : String) : List Char :=
  if cs then s.toList else s.toList.map Char.toLower

/-- QString.compare(other, cs) == 0. -/
def qstringEquals (v w : String) (cs : Bool) : Bool :=
  qtFold cs v == qtFold cs w

/-- Containment of one character list in another, scanning left to right. -/
def listContainsSub (hay needle : List Char) : Bool :=
  needle.isPrefixOf hay ||
    match hay with
    | [] => false
    | _ :: t => listContainsSub t needle

/-- QString.contains(other, cs). -/
def qstringContains (v w : String) (cs : Bool) : Bool :=
  listContainsSub (qtFold cs v) (qtFold cs w)

/-- QString.startsWith(other, cs). -/
def qstringStarts (v w : String) (cs : Bool) : Bool :=
  (qtFold cs w).isPrefixOf (qtFold cs v)

/-- QString.endsWith(other, cs). -/
def qstringEnds (v w : String) (cs : Bool) : Bool :=
  (qtFold cs w).isSuffixOf (qtFold cs v)

/-- QHtmlAttributeMatch: a name, a value and a MatchFlags bitmask.
The default flags value is MatchExactly (zero). -/
structure QHtmlAttributeMatch where
  name : String
  value : String
  flags : Nat
deriving DecidableEq

/-- matchAttribute from qhtmlparser.cpp: an else-if chain over testFlag.
The QRegExp based branches are abstracted: re and wc take the pattern, the
attribute value and the case sensitivity and return whether the value
contains a match of the pattern. -/
def matchAttribute (re wc : String → String → Bool → Bool)
    (value : String) (m : QHtmlAttributeMatch) : Bool :=
  if testFlag m.flags MatchExactly then
    qstringEquals value m.value (testFlag m.flags MatchCaseSensitive)
  else if testFlag m.flags MatchContains then
    qstringContains value m.value (testFlag m.flags MatchCaseSensitive)
  else if testFlag m.flags MatchStartsWith then
    qstringStarts value m.value (testFlag m.flags MatchCaseSensitive) &&
      (!(testFlag m.flags MatchEndsWith) ||
        qstringEnds value m.value (testFlag m.flags MatchCaseSensitive))
  else if testFlag m.flags MatchEndsWith then
    qstringEnds value m.value (testFlag m.flags MatchCaseSensitive)
  else if testFlag m.flags MatchRegExp then
    re m.value value (testFlag m.flags MatchCaseSensitive)
  else if testFlag m.flags MatchWildcard then
    wc m.value value (testFlag m.flags MatchCaseSensitive)
  else
    false

/-- One attribute of a node, as enumerated by tidyAttrFirst and
tidyAttrNext. The value is optional because tidyAttrValue may be null. -/
structure QHtmlAttr where
  name : String
  value : Option String
deriving DecidableEq

/-- nodeAttribute from qhtmlparser.cpp: the value of the first attribute
whose name equals the given name, null when none matches or the matching
attribute has a null value. -/
def nodeAttribute : List QHtmlAttr → String → Option String
  | [], _ => none
  | a :: rest, nm => if a.name == nm then a.value else nodeAttribute rest nm

/-- The MatchAll loop of matchAttributes: each criterion must find a
non-null same-named attribute value that it matches, else false. -/
def matchAllLoop (re wc : String → String → Bool → Bool)
    (attrs : List QHtmlAttr) : List QHtmlAttributeMatch → Bool
  | [] => true
  | m :: rest =>
    match nodeAttribute attrs m.name with
    | none => false
    | some v => matchAttribute re wc v m && matchAllLoop re wc attrs rest

/-- The MatchAny loop of matchAttributes: true as soon as one criterion
finds a non-null same-named attribute value that it matches. -/
def matchAnyLoop (re wc : String → String → Bool → Bool)
    (attrs : List QHtmlAttr) : List QHtmlAttributeMatch → Bool
  | [] => false
  | m :: rest =>
    match nodeAttribute attrs m.name with
    | none => matchAnyLoop re wc attrs rest
    | some v => matchAttribute re wc v m || matchAnyLoop re wc attrs rest

/-- matchAttributes from qhtmlparser.cpp. -/
def matchAttributes (re wc : String → String → Bool → Bool)
    (attrs : List QHtmlAttr) (ms : List QHtmlAttributeMatch)
    (matchType : MatchType) : Bool :=
  match matchType with
  | .matchAll => matchAllLoop re wc attrs ms
  | .matchAny => matchAnyLoop re wc attrs ms

/-! ### The tidy tree, modelled as an inductive tree of nodes.
A node owns the forest of its children; a forest is the sibling chain
walked by tidyGetChild and tidyGetNext. -/

/-- The tidy node types that the code discriminates on. -/
inductive NodeType where
  | root
  | docType
  | comment
  | procIns
  | text
  | start
  | endTag
  | startEnd
  | other
deriving DecidableEq

/-- The queryable data of one tidy node: its type, its tag name
(tidyNodeGetName), its attribute list, and the text that tidyNodeGetText
produces for it. -/
structure NodeData where
  ntype : NodeType
  name : String
  attrs : List QHtmlAttr
  content : String
deriving DecidableEq

mutual

/-- One tidy node together with its ordered child chain. -/
inductive HNode where
  | node : NodeData → HForest → HNode

/-- A sibling chain of tidy nodes. -/
inductive HForest where
  | nil : HForest
  | cons : HNode → HForest → HForest

end

def HNode.ndata : HNode → NodeData
  | .node d _ => d

def HNode.children : HNode → HForest
  | .node _ cs => cs

/-- The nodes of a sibling chain, in order. -/
def HForest.toList : HForest → List HNode
  | .nil => []
  | .cons c rest => c :: rest.toList

/-- A sibling chain holding the given nodes in order. -/
def HForest.ofList : List HNode → HForest
  | [] => .nil
  | c :: rest => .cons c (HForest.ofList rest)

/-- The TidyNode_Start or TidyNode_StartEnd test used by every traversal
loop in qhtmlparser.cpp. -/
def isStartNode (n : HNode) : Bool :=
  n.ndata.ntype == .start || n.ndata.ntype == .startEnd

/-- The TidyNode_Text test used by allTextNodes. -/
def isTextNode (n : HNode) : Bool :=
  n.ndata.ntype == .text

/-- The recursion of allStartNodes over a sibling chain: each child of
start type is appended, then the walk descends into the child whatever its
own type, then moves to the next sibling. -/
def allStartNodesFo : HForest → List HNode
  | .nil => []
  | .cons (HNode.node d cs) rest =>
    (if isStartNode (HNode.node d cs) then [HNode.node d cs] else []) ++
      allStartNodesFo cs ++ allStartNodesFo rest

/-- allStartNodes from qhtmlparser.cpp: every descendant start node of the
given node. -/
def allStartNodes (n : HNode) : List HNode :=
  allStartNodesFo n.children

/-- Spec description, for refinement comparison: all nodes of a sibling
chain and their descendants, in pre-order (a node before its own children,
children left to right). -/
def preorderDescFo : HForest → List HNode
  | .nil => []
  | .cons (HNode.node d cs) rest =>
    HNode.node d cs :: (preorderDescFo cs ++ preorderDescFo rest)

/-- Spec description, for refinement comparison: all proper descendants of
a node in pre-order document order. -/
def preorderDesc (n : HNode) : List HNode :=
  preorderDescFo n.children

/-- The recursion of allTextNodes over a sibling chain. Each collected
node is paired with its path of child indices below the scanned element,
so that the pointer identity test tidyGetParent(node) == element of the
C++ code is expressible: the parent is the element exactly when the path
has one entry. -/
def allTextNodesFo : HForest → Nat → List (HNode × List Nat)
  | .nil, _ => []
  | .cons (HNode.node d cs) rest, i =>
    (if isTextNode (HNode.node d cs) then [(HNode.node d cs, [i])] else []) ++
      (allTextNodesFo cs 0).map (fun q => (q.1, i :: q.2)) ++
      allTextNodesFo rest (i + 1)

/-- allTextNodes from qhtmlparser.cpp: every descendant text node of the
given node, with its path below the node. -/
def allTextNodes (n : HNode) : List (HNode × List Nat) :=
  allTextNodesFo n.children 0

/-- childStartNode from qhtmlparser.cpp: the first direct child of start
type. (The recursive call in the C++ loop discards its result, so the
function only ever returns a direct child.) -/
def childStartNode : HForest → Option HNode
  | .nil => none
  | .cons c rest => if isStartNode c then some c else childStartNode rest

/-- The loop of childStartNodes from qhtmlparser.cpp: it chains
childStartNode with nextSiblingStartNode, which enumerates exactly the
start-type direct children in order. -/
def filterStartFo : HForest → List HNode
  | .nil => []
  | .cons c rest =>
    if isStartNode c then c :: filterStartFo rest else filterStartFo rest

/-- childStartNodes from qhtmlparser.cpp: the direct children of start
type, in order. -/
def childStartNodes (n : HNode) : List HNode :=
  filterStartFo n.children

/-! ### Element search by tag name and by id (qhtmlparser.cpp). -/

/-- The tag name comparison tidyNodeGetName(node) == name. -/
def tagNameIs (n : HNode) (nm : String) : Bool :=
  n.ndata.name == nm

/-- The collecting loop of elementsByTagName over the allStartNodes list. -/
def filterByName : List HNode → String → List HNode
  | [], _ => []
  | c :: rest, nm =>
    if tagNameIs c nm then c :: filterByName rest nm else filterByName rest nm

/-- elementsByTagName from qhtmlparser.cpp (tag name only overload). -/
def elementsByTagName (n : HNode) (nm : String) : List HNode :=
  filterByName (allStartNodes n) nm

/-- The first-hit loop of firstElementByTagName. -/
def firstByName : List HNode → String → Option HNode
  | [], _ => none
  | c :: rest, nm => if tagNameIs c nm then some c else firstByName rest nm

/-- firstElementByTagName from qhtmlparser.cpp. -/
def firstElementByTagName (n : HNode) (nm : String) : Option HNode :=
  firstByName (allStartNodes n) nm

/-- lastElementByTagName from qhtmlparser.cpp: the last entry of the
elementsByTagName list, a null element when the list is empty. -/
def lastElementByTagName (n : HNode) (nm : String) : Option HNode :=
  (elementsByTagName n nm).getLast?

/-- The counting loop of nthElementByTagName: over the visited nodes in
visit order, compare hits with n at each tag match, stepping hits by inc
after a miss of the comparison. -/
def nthScan : List HNode → String → Int → Int → Int → Option HNode
  | [], _, _, _, _ => none
  | c :: rest, nm, n, inc, hits =>
    if tagNameIs c nm then
      if hits == n then some c else nthScan rest nm n inc (hits + inc)
    else
      nthScan rest nm n inc hits

/-- nthElementByTagName from qhtmlparser.cpp. Its loop runs i from start
while i != end stepping by inc, with start = size-1, end = 0, inc = -1 for
negative n and start = 0, end = size-1, inc = 1 otherwise: so for negative
n it visits the indices size-1 down to 1 (the reverse of the list without
its head) and for positive n the indices 0 up to size-2 (the list without
its last entry). -/
def nthElementByTagName (e : HNode) (n : Int) (nm : String) : Option HNode :=
  if n == 0 then
    firstElementByTagName e nm
  else
    let nodes := allStartNodes e
    if nodes.isEmpty then none
    else if n < 0 then nthScan (nodes.drop 1).reverse nm n (-1) 0
    else nthScan (nodes.take (nodes.length - 1)) nm n 1 0

/-- The scanning loop of elementById over the allStartNodes list: the
first node whose id attribute is present, non-null and equal to id. -/
def findById : List HNode → String → Option HNode
  | [], _ => none
  | c :: rest, i =>
    match nodeAttribute c.ndata.attrs "id" with
    | some v => if v == i then some c else findById rest i
    | none => findById rest i

/-- elementById from qhtmlparser.cpp. -/
def elementById (n : HNode) (i : String) : Option HNode :=
  findById (allStartNodes n) i

/-! ### Child selection (qhtmlparser.cpp). -/

/-- firstChildElement from qhtmlparser.cpp. -/
def firstChildElement (n : HNode) : Option HNode :=
  childStartNode n.children

/-- lastChildElement from qhtmlparser.cpp. -/
def lastChildElement (n : HNode) : Option HNode :=
  (childStartNodes n).getLast?

/-- nthChildElement from qhtmlparser.cpp: n == 0 delegates to
firstChildElement; negative n indexes as size + n when that is not below
zero; positive n indexes the child list only under the guard
n < size - 1. -/
def nthChildElement (n : HNode) (k : Int) : Option HNode :=
  if k == 0 then
    firstChildElement n
  else
    let nodes := childStartNodes n
    if k < 0 then
      if 0 ≤ (nodes.length : Int) + k then
        nodes[((nodes.length : Int) + k).toNat]?
      else
        none
    else
      if k < (nodes.length : Int) - 1 then nodes[k.toNat]? else none

/-! ### Text extraction (qhtmlparser.cpp). -/

/-- The final trim of QHtmlElement.text: chop one character when the
buffer ends with a newline. -/
def chopTrailingNewline (s : String) : String :=
  if s.toList.getLast? == some (Char.ofNat 10) then
    String.mk s.toList.dropLast
  else
    s

/-- QHtmlElement.text from qhtmlparser.cpp. With includeChildElements the
buffer receives the text of every descendant text node in allTextNodes
order; without it the loop appends the first text node whose parent is the
element (path of length one) and breaks. -/
def text (includeChildElements : Bool) (n : HNode) : String :=
  if includeChildElements then
    chopTrailingNewline (String.join ((allTextNodes n).map (fun q => q.1.ndata.content)))
  else
    match (allTextNodes n).find? (fun q => q.2.length == 1) with
    | some q => chopTrailingNewline q.1.ndata.content
    | none => ""

/-! ### Sibling point queries (qhtmlparser.cpp).
nextSiblingStartNode and previousSiblingStartNode walk the tidyGetNext and
tidyGetPrev chains of one node. The chain is modelled by the ordered child
list of the parent together with the index of the node in it, so that node
identity is the index. -/

/-- The tidyGetNext walk: the first index at or after j holding a start
node. nextSiblingStartNode of a node at index i starts this walk
at i + 1. -/
def findStartFrom (sibs : List HNode) (j : Nat) : Option Nat :=
  if h : j < sibs.length then
    if isStartNode sibs[j] then some j else findStartFrom sibs (j + 1)
  else
    none
termination_by sibs.length - j

/-- The tidyGetPrev walk: the first index strictly below j, scanning
downward, holding a start node. -/
def prevStartBefore (sibs : List HNode) : Nat → Option Nat
  | 0 => none
  | j + 1 =>
    if _h : j < sibs.length then
      if isStartNode sibs[j] then some j else prevStartBefore sibs j
    else
      none

/-- nextSiblingStartNode from qhtmlparser.cpp, as an index query. -/
def nextSiblingStartNode (sibs : List HNode) (i : Nat) : Option Nat :=
  findStartFrom sibs (i + 1)

/-- previousSiblingStartNode from qhtmlparser.cpp, as an index query. -/
def previousSiblingStartNode (sibs : List HNode) (i : Nat) : Option Nat :=
  prevStartBefore sibs i

/-- A QHtmlElement value: the document handle and the node handle of its
private part, each null when unset. For the sibling queries the node
handle is the index of the node in the sibling chain. -/
structure QHtmlElement where
  document : Option Nat
  node : Option Nat
deriving DecidableEq

/-- The default constructed (null) QHtmlElement. -/
def nullElement : QHtmlElement :=
  { document := none, node := none }

/-- QHtmlElement.nextSibling from qhtmlparser.cpp: null in, null out;
otherwise the next sibling start node with the same document, or the
default element when the walk is exhausted. -/
def nextSibling (sibs : List HNode) (e : QHtmlElement) : QHtmlElement :=
  match e.node with
  | none => nullElement
  | some i =>
    match nextSiblingStartNode sibs i with
    | some j => { document := e.document, node := some j }
    | none => nullElement

/-- QHtmlElement.previousSibling from qhtmlparser.cpp. -/
def previousSibling (sibs : List HNode) (e : QHtmlElement) : QHtmlElement :=
  match e.node with
  | none => nullElement
  | some i =>
    match previousSiblingStartNode sibs i with
    | some j => { document := e.document, node := some j }
    | none => nullElement

/-! ### Document lifecycle (qhtmlparser.cpp).
The tidy parser is the external normalizer: its response to one content
buffer is a tree handle (with the root, html, head and body lookups that
the accessors delegate to), an error count and a diagnostics buffer. -/

/-- The point queries of a parsed tidy tree that QHtmlDocument uses:
tidyGetRoot, tidyGetHtml, tidyGetHead, tidyGetBody. -/
structure TidyTreeModel where
  root : Option HNode
  html : Option HNode
  head : Option HNode
  body : Option HNode

/-- The outcome of tidyParseString on one content buffer: the tree, the
tidyErrorCount value and the error buffer contents. -/
structure ParseResult where
  tree : TidyTreeModel
  errorCount : Nat
  diagnostics : String

/-- The private state of a QHtmlDocument: the owned tree handle (null
until a setContent call), the error flag and the error string. -/
structure QHtmlDocPrivate where
  document : Option TidyTreeModel
  error : Bool
  errorString : String

/-- A freshly constructed QHtmlDocument: null handle, no error. -/
def initDoc : QHtmlDocPrivate :=
  { document := none, error := false, errorString := "" }

/-- QHtmlDocumentPrivate.setContent from qhtmlparser.cpp: the old tree is
released, the new tree handle is stored unconditionally, the error flag is
tidyErrorCount > 0, the error string is the diagnostics exactly when the
flag is set, and the returned value is the negated flag. -/
def setContent (_d : QHtmlDocPrivate) (pr : ParseResult) : Bool × QHtmlDocPrivate :=
  let err : Bool := decide (0 < pr.errorCount)
  (!err,
    { document := some pr.tree,
      error := err,
      errorString := if err then pr.diagnostics else "" })

/-- QHtmlDocument.documentElement: null when the document handle is null,
else the tidyGetRoot node when present. -/
def documentElement (d : QHtmlDocPrivate) : Option HNode :=
  match d.document with
  | none => none
  | some t => t.root

/-- QHtmlDocument.htmlElement. -/
def htmlElement (d : QHtmlDocPrivate) : Option HNode :=
  match d.document with
  | none => none
  | some t => t.html

/-- QHtmlDocument.headElement. -/
def headElement (d : QHtmlDocPrivate) : Option HNode :=
  match d.document with
  | none => none
  | some t => t.head

/-- QHtmlDocument.bodyElement. -/
def bodyElement (d : QHtmlDocPrivate) : Option HNode :=
  match d.document with
  | none => none
  | some t => t.body

/-- QHtmlDocument.hasError. -/
def hasError (d : QHtmlDocPrivate) : Bool :=
  d.error

/-- QHtmlDocument.errorString. -/
def docErrorString (d : QHtmlDocPrivate) : String :=
  d.errorString

/-! ### Concrete sample trees used by evaluations and witnesses. -/

/-- A start node with the given tag name, attributes and children. -/
def mkStart (nm : String) (attrs : List QHtmlAttr) (cs : List HNode) : HNode :=
  HNode.node { ntype := .start, name := nm, attrs := attrs, content := "" }
    (HForest.ofList cs)

/-- A text node with the given tidyNodeGetText content. -/
def mkText (s : String) : HNode :=
  HNode.node { ntype := .text, name := "", attrs := [], content := s } .nil

def c2a1 : HNode := mkStart "a" [] []

def c2a2 : HNode := mkStart "a" [{ name := "k", value := some "2" }] []

def c2root : HNode := mkStart "root" [] [c2a1, c2a2]

def c3a : HNode := mkStart "a" [] []

def c3b : HNode := mkStart "b" [] []

def c3parent : HNode := mkStart "p" [] [c3a, c3b]

def c4node : HNode := mkStart "html" [] []

def c4tree : TidyTreeModel :=
  { root := some c4node, html := some c4node, head := none, body := none }

def c4pr : ParseResult :=
  { tree := c4tree, errorCount := 1, diagnostics := "line 1 column 1 - Error" }

def c5el : HNode := mkStart "div" [] [mkText "A\n", mkText "B\n"]

/-! ### Claim theorems. -/

/-- C1: the claim states that with mode Exactly and the case sensitive
flag set, matchAttribute is true exactly on byte-for-byte equality. The
code disagrees: MatchExactly is the zero flag, QFlags.testFlag of the zero
flag only holds when the whole flag value is zero, so the flag value
MatchExactly | MatchCaseSensitive = 0x20 selects no branch at all and
matchAttribute returns false even when the value equals the criterion
value byte for byte. -/
theorem C1_exactly_with_case_sensitive_always_false
    (re wc : String → String → Bool → Bool) (v nm : String) :
    matchAttribute re wc v
      { name := nm, value := v, flags := MatchExactly ||| MatchCaseSensitive } = false := by
  simp [matchAttribute, testFlag, MatchExactly, MatchContains, MatchStartsWith,
    MatchEndsWith, MatchRegExp, MatchWildcard, MatchCaseSensitive]

/-- C2: the claim states nthElementByTagName(-1, name) equals
lastElementByTagName(name) and that positive n picks the 0-indexed n-th
match. On a root whose pre-order descendant starts are two nodes named
"a": the backward loop of the code stops before index 0 and compares a
hit counter that starts at 0 against n = -1, so it returns null while
lastElementByTagName returns the second match; the forward loop stops
before the last index, so n = 1 also returns null instead of the second
match. The n = 0 delegation to firstElementByTagName does hold. -/
theorem C2_nth_ordinal_scan_misses_matches :
    nthElementByTagName c2root (-1) "a" = none ∧
    lastElementByTagName c2root "a" = some c2a2 ∧
    nthElementByTagName c2root 1 "a" = none ∧
    elementsByTagName c2root "a" = [c2a1, c2a2] ∧
    nthElementByTagName c2root 0 "a" = firstElementByTagName c2root "a" :=
  ⟨rfl, rfl, rfl, rfl, rfl⟩

/-- C3: the claim states that for 0 < n <= k-1 nthChildElement(n) is the
n-th child (0-indexed). On an element with two start children the guard
n < size - 1 of the code rejects n = 1, the true last index, and returns
null. The n = 0 case and the negative indexing (-1 the last child, -2 the
first, out of bounds null) behave as claimed. -/
theorem C3_positive_bound_excludes_last_child :
    nthChildElement c3parent 1 = none ∧
    childStartNodes c3parent = [c3a, c3b] ∧
    nthChildElement c3parent 0 = some c3a ∧
    nthChildElement c3parent (-1) = some c3b ∧
    nthChildElement c3parent (-2) = some c3a ∧
    nthChildElement c3parent (-3) = none ∧
    nthChildElement c3parent 2 = none :=
  ⟨rfl, rfl, rfl, rfl, rfl, rfl, rfl⟩

/-- C4, counterexample: the claim states that after a failed setContent
the element accessors return null views. In the code setContent stores the
freshly created tidy handle unconditionally, so after a failing parse
whose (force-output) tree has a root, documentElement returns that root,
not a null element. -/
theorem C4_cex_accessor_not_null_after_failure :
    (setContent initDoc c4pr).1 = false ∧
    hasError (setContent initDoc c4pr).2 = true ∧
    documentElement (setContent initDoc c4pr).2 = some c4node ∧
    documentElement (setContent initDoc c4pr).2 ≠ none :=
  ⟨rfl, rfl, rfl, fun h => Option.noConfusion h⟩

/-- C4, amended: whenever setContent fails it returns false, sets the
error flag and stores the diagnostics as the error string; but the
document keeps the newly parsed tree handle, so the element accessors
answer from that repaired tree (null only when the tree lacks the node)
rather than returning null views. -/
theorem C4_amended_failure_populates_error_and_keeps_tree
    (d : QHtmlDocPrivate) (pr : ParseResult) (h : 0 < pr.errorCount) :
    (setContent d pr).1 = false ∧
    hasError (setContent d pr).2 = true ∧
    docErrorString (setContent d pr).2 = pr.diagnostics ∧
    documentElement (setContent d pr).2 = pr.tree.root ∧
    htmlElement (setContent d pr).2 = pr.tree.html ∧
    headElement (setContent d pr).2 = pr.tree.head ∧
    bodyElement (setContent d pr).2 = pr.tree.body := by
  simp [setContent, hasError, docErrorString, documentElement, htmlElement,
    headElement, bodyElement, h]

/-- C4, witness for the amended theorem at a concrete failing parse. -/
theorem C4_amended_witness :
    (setContent initDoc c4pr).1 = false ∧
    hasError (setContent initDoc c4pr).2 = true ∧
    docErrorString (setContent initDoc c4pr).2 = c4pr.diagnostics ∧
    documentElement (setContent initDoc c4pr).2 = c4pr.tree.root ∧
    htmlElement (setContent initDoc c4pr).2 = c4pr.tree.html ∧
    headElement (setContent initDoc c4pr).2 = c4pr.tree.head ∧
    bodyElement (setContent initDoc c4pr).2 = c4pr.tree.body :=
  C4_amended_failure_populates_error_and_keeps_tree initDoc c4pr (by decide)

/-- C5, counterexample: the claim states text(false) concatenates all
direct text children (then chops one trailing newline). On an element
with two direct text children "A\n" and "B\n" that would give "A\nB",
but the code breaks after the first qualifying text node and
returns "A". -/
theorem C5_cex_only_first_direct_text_node :
    text false c5el = "A" ∧ ("A" : String) ≠ "A\nB" :=
  ⟨rfl, by decide⟩

/-- testFlag at the zero flag MatchExactly holds exactly for the zero
flag value. -/
theorem testFlag_exactly (f : Nat) : testFlag f MatchExactly = (f == 0) := by
  simp [testFlag, MatchExactly, Nat.and_zero]

/-- A flag value that passes testFlag for a non-zero flag is non-zero. -/
theorem flags_ne_zero_of_testFlag {f fl : Nat} (hfl : fl ≠ 0)
    (h : testFlag f fl = true) : f ≠ 0 := by
  rintro rfl
  rw [testFlag] at h
  simp only [Nat.zero_and, beq_iff_eq, bne_iff_ne, ne_eq, Bool.and_eq_true,
    Bool.or_eq_true, decide_eq_true_eq] at h
  exact hfl h.1.symm

/-- C10: matchAttribute applies exactly one test chosen by a fixed
precedence: Contains first, then StartsWith (conjoined with an EndsWith
test of the same value when that flag is also set), then EndsWith, then
RegExp, then Wildcard; the Exactly branch runs only when the whole flag
value is exactly zero, so a non-zero flag value without any shape flag
(for example only MatchCaseSensitive) makes matchAttribute false for
every value. -/
theorem C10_fixed_precedence (re wc : String → String → Bool → Bool)
    (v : String) (m : QHtmlAttributeMatch) :
    (m.flags = 0 →
      matchAttribute re wc v m = qstringEquals v m.value false) ∧
    (m.flags ≠ 0 → testFlag m.flags MatchExactly = false) ∧
    (testFlag m.flags MatchContains = true →
      matchAttribute re wc v m =
        qstringContains v m.value (testFlag m.flags MatchCaseSensitive)) ∧
    (testFlag m.flags MatchContains = false →
      testFlag m.flags MatchStartsWith = true →
      matchAttribute re wc v m =
        (qstringStarts v m.value (testFlag m.flags MatchCaseSensitive) &&
          (!(testFlag m.flags MatchEndsWith) ||
            qstringEnds v m.value (testFlag m.flags MatchCaseSensitive)))) ∧
    (testFlag m.flags MatchContains = false →
      testFlag m.flags MatchStartsWith = false →
      testFlag m.flags MatchEndsWith = true →
      matchAttribute re wc v m =
        qstringEnds v m.value (testFlag m.flags MatchCaseSensitive)) ∧
    (testFlag m.flags MatchContains = false →
      testFlag m.flags MatchStartsWith = false →
      testFlag m.flags MatchEndsWith = false →
      testFlag m.flags MatchRegExp = true →
      matchAttribute re wc v m =
        re m.value v (testFlag m.flags MatchCaseSensitive)) ∧
    (testFlag m.flags MatchContains = false →
      testFlag m.flags MatchStartsWith = false →
      testFlag m.flags MatchEndsWith = false →
      testFlag m.flags MatchRegExp = false →
      testFlag m.flags MatchWildcard = true →
      matchAttribute re wc v m =
        wc m.value v (testFlag m.flags MatchCaseSensitive)) ∧
    (m.flags ≠ 0 →
      testFlag m.flags MatchContains = false →
      testFlag m.flags MatchStartsWith = false →
      testFlag m.flags MatchEndsWith = false →
      testFlag m.flags MatchRegExp = false →
      testFlag m.flags MatchWildcard = false →
      matchAttribute re wc v m = false) := by
  have hex := testFlag_exactly m.flags
  refine ⟨?_, ?_, ?_, ?_, ?_, ?_, ?_, ?_⟩
  · intro h0
    simp [matchAttribute, hex, h0, testFlag, MatchExactly, MatchContains,
      MatchStartsWith, MatchEndsWith, MatchRegExp, MatchWildcard, MatchCaseSensitive]
  · intro hne
    simp [hex, hne]
  · intro hc
    have hne : m.flags ≠ 0 :=
      flags_ne_zero_of_testFlag (by simp [MatchContains]) hc
    simp [matchAttribute, hex, hne, hc]
  · intro hc hs
    have hne : m.flags ≠ 0 :=
      flags_ne_zero_of_testFlag (by simp [MatchStartsWith]) hs
    simp [matchAttribute, hex, hne, hc, hs]
  · intro hc hs he
    have hne : m.flags ≠ 0 :=
      flags_ne_zero_of_testFlag (by simp [MatchEndsWith]) he
    simp [matchAttribute, hex, hne, hc, hs, he]
  · intro hc hs he hr
    have hne : m.flags ≠ 0 :=
      flags_ne_zero_of_testFlag (by simp [MatchRegExp]) hr
    simp [matchAttribute, hex, hne, hc, hs, he, hr]
  · intro hc hs he hr hw
    have hne : m.flags ≠ 0 :=
      flags_ne_zero_of_testFlag (by simp [MatchWildcard]) hw
    simp [matchAttribute, hex, hne, hc, hs, he, hr, hw]
  · intro hne hc hs he hr hw
    simp [matchAttribute, hex, hne, hc, hs, he, hr, hw]

/-- C10, witness: the precedence theorem applied to a criterion whose
flag value is MatchCaseSensitive only. -/
theorem C10_witness :
    matchAttribute (fun _ _ _ => false) (fun _ _ _ => false) "abc"
      { name := "n", value := "x", flags := MatchCaseSensitive } = false :=
  (C10_fixed_precedence (fun _ _ _ => false) (fun _ _ _ => false) "abc"
      { name := "n", value := "x", flags := MatchCaseSensitive }).2.2.2.2.2.2.2
    (by decide) (by decide) (by decide) (by decide) (by decide) (by decide)

/-- The MatchAll loop holds exactly when every criterion finds a non-null
same-named attribute value that it matches. -/
theorem matchAllLoop_eq_true_iff (re wc : String → String → Bool → Bool)
    (attrs : List QHtmlAttr) (ms : List QHtmlAttributeMatch) :
    matchAllLoop re wc attrs ms = true ↔
      ∀ m ∈ ms, ∃ v, nodeAttribute attrs m.name = some v ∧
        matchAttribute re wc v m = true := by
  induction ms with
  | nil => simp [matchAllLoop]
  | cons m rest ih =>
    cases h : nodeAttribute attrs m.name with
    | none => simp [matchAllLoop, h]
    | some v => simp [matchAllLoop, h, ih]

/-- The MatchAny loop holds exactly when some criterion finds a non-null
same-named attribute value that it matches. -/
theorem matchAnyLoop_eq_true_iff (re wc : String → String → Bool → Bool)
    (attrs : List QHtmlAttr) (ms : List QHtmlAttributeMatch) :
    matchAnyLoop re wc attrs ms = true ↔
      ∃ m ∈ ms, ∃ v, nodeAttribute attrs m.name = some v ∧
        matchAttribute re wc v m = true := by
  induction ms with
  | nil => simp [matchAnyLoop]
  | cons m rest ih =>
    cases h : nodeAttribute attrs m.name with
    | none => simp [matchAnyLoop, h, ih]
    | some v => simp [matchAnyLoop, h, ih]

/-- C6: under MatchAll, matchAttributes holds exactly when every criterion
finds a same-named attribute value satisfying it (a criterion naming an
absent attribute fails the whole match), and the empty criteria list gives
true; under MatchAny it holds exactly when some criterion finds a
same-named satisfying value (absent attributes are merely skipped), and
the empty criteria list gives false. -/
theorem C6_match_combinator (re wc : String → String → Bool → Bool)
    (attrs : List QHtmlAttr) (ms : List QHtmlAttributeMatch) :
    (matchAttributes re wc attrs ms .matchAll = true ↔
      ∀ m ∈ ms, ∃ v, nodeAttribute attrs m.name = some v ∧
        matchAttribute re wc v m = true) ∧
    (matchAttributes re wc attrs ms .matchAny = true ↔
      ∃ m ∈ ms, ∃ v, nodeAttribute attrs m.name = some v ∧
        matchAttribute re wc v m = true) ∧
    matchAttributes re wc attrs [] .matchAll = true ∧
    matchAttributes re wc attrs [] .matchAny = false :=
  ⟨matchAllLoop_eq_true_iff re wc attrs ms,
   matchAnyLoop_eq_true_iff re wc attrs ms, rfl, rfl⟩

/-- The subtree scan of the code equals the pre-order descendant list
restricted to start nodes, chain by chain. -/
theorem allStartNodesFo_eq_filter (f : HForest) :
    allStartNodesFo f = (preorderDescFo f).filter isStartNode := by
  induction f using allStartNodesFo.induct with
  | case1 => rfl
  | case2 d cs rest ih1 ih2 =>
    simp only [allStartNodesFo, preorderDescFo, List.filter_append,
      List.filter_cons, ih1, ih2]
    cases hs : isStartNode (HNode.node d cs) <;> simp [hs]

/-- C7: allStartNodes lists exactly the start nodes of the pre-order
descendant enumeration, in that order: every descendant start node appears
exactly once, in document order, and a descendant of non-start type does
not block descent into its own children (preorderDesc descends into every
node). -/
theorem C7_all_start_nodes_is_preorder_filter (n : HNode) :
    allStartNodes n = (preorderDesc n).filter isStartNode :=
  allStartNodesFo_eq_filter n.children

/-- The elementById loop is List.find? with the exact id comparison. -/
theorem findById_eq_find? (l : List HNode) (i : String) :
    findById l i =
      l.find? (fun c => nodeAttribute c.ndata.attrs "id" == some i) := by
  induction l with
  | nil => rfl
  | cons c rest ih =>
    cases h : nodeAttribute c.ndata.attrs "id" with
    | none => simp [findById, List.find?_cons, h, ih]
    | some v =>
      by_cases hv : v = i
      · simp [findById, List.find?_cons, h, hv]
      · simp [findById, List.find?_cons, h, hv, ih]

/-- C8: elementById returns the first pre-order descendant start node
whose id attribute equals the given id exactly (String equality is byte
equality, hence case sensitive), and none when no descendant matches;
List.find? makes the document-order-first choice explicit when several
descendants share the id. -/
theorem C8_element_by_id_first_preorder_match (n : HNode) (i : String) :
    elementById n i =
      ((preorderDesc n).filter isStartNode).find?
        (fun c => nodeAttribute c.ndata.attrs "id" == some i) := by
  rw [elementById, findById_eq_find?, allStartNodes,
    allStartNodesFo_eq_filter, preorderDesc]

/-- Every path collected by allTextNodes is non-empty: each collected node
lies strictly below the scanned element. -/
theorem allTextNodesFo_path_ne_nil (f : HForest) (i : Nat) :
    ∀ q ∈ allTextNodesFo f i, q.2 ≠ [] := by
  induction f, i using allTextNodesFo.induct with
  | case1 i => simp [allTextNodesFo]
  | case2 d cs rest i ih1 ih2 =>
    intro q hq
    simp only [allTextNodesFo, List.mem_append, List.mem_map] at hq
    rcases hq with (hq | ⟨p, hp, rfl⟩) | hq
    · rcases hq with hq
      by_cases ht : isTextNode (HNode.node d cs) <;> simp [ht] at hq
      · simp [hq]
    · simp
    · exact ih2 q hq

/-- The first length-one path in the allTextNodes enumeration belongs to
the first direct text child of the scanned chain. -/
theorem allTextNodesFo_first_direct (f : HForest) (i : Nat) :
    ((allTextNodesFo f i).find? (fun q => q.2.length == 1)).map Prod.fst =
      (HForest.toList f).find? isTextNode := by
  induction f, i using allTextNodesFo.induct with
  | case1 i => rfl
  | case2 d cs rest i ih1 ih2 =>
    have hmapped :
        ((allTextNodesFo cs 0).map (fun q => (q.1, i :: q.2))).find?
          (fun q => q.2.length == 1) = none := by
      rw [List.find?_map]
      rw [List.find?_eq_none.mpr]
      · simp
      · intro q hq
        have hne := allTextNodesFo_path_ne_nil cs 0 q hq
        simp [Function.comp, List.length_eq_zero]
        exact hne
    simp only [allTextNodesFo, List.find?_append, hmapped, HForest.toList,
      List.find?_cons]
    cases ht : isTextNode (HNode.node d cs)
    · simpa [ht] using ih2
    · simp [ht]

/-- C5, amended: text(false) returns the content of the first text node
whose immediate parent is the element (the first direct text child in
chain order), with one trailing newline removed by chopTrailingNewline
and no other trimming, and the empty string when the element has no
direct text child. -/
theorem C5_amended_text_false_first_direct_text (n : HNode) :
    text false n =
      (match (HForest.toList n.children).find? isTextNode with
       | some t => chopTrailingNewline t.ndata.content
       | none => "") := by
  have h := allTextNodesFo_first_direct n.children 0
  simp only [text, Bool.false_eq_true, if_false, allTextNodes]
  cases hf : (allTextNodesFo n.children 0).find? (fun q => q.2.length == 1) with
  | none =>
    rw [hf] at h
    simp at h
    rw [← h]
  | some q =>
    rw [hf] at h
    simp at h
    rw [← h]

theorem findStartFrom_spec (sibs : List HNode) (a : Nat) :
    ∀ j, findStartFrom sibs a = some j →
      a ≤ j ∧ j < sibs.length ∧
        (∀ nd, sibs[j]? = some nd → isStartNode nd = true) ∧
        (∀ k, a ≤ k → k < j → ∀ nd, sibs[k]? = some nd → isStartNode nd = false) := by
  induction a using findStartFrom.induct sibs with
  | case1 x hx hstart =>
    intro j hj
    rw [findStartFrom, dif_pos hx, if_pos hstart] at hj
    injection hj with hxj
    subst hxj
    refine ⟨Nat.le_refl x, hx, ?_, ?_⟩
    · intro nd hnd
      rw [List.getElem?_eq_getElem hx] at hnd
      injection hnd with hnd
      rw [← hnd]
      exact hstart
    · intro k hk1 hk2 nd hnd
      exact absurd (Nat.lt_of_le_of_lt hk1 hk2) (Nat.lt_irrefl x)
  | case2 x hx hnstart ih =>
    intro j hj
    rw [findStartFrom, dif_pos hx, if_neg hnstart] at hj
    obtain ⟨h1, h2, h3, h4⟩ := ih j hj
    have hxf : isStartNode sibs[x] = false := by simpa using hnstart
    refine ⟨by omega, h2, h3, ?_⟩
    intro k hk1 hk2 nd hnd
    rcases Nat.eq_or_lt_of_le hk1 with hk | hklt
    · subst hk
      rw [List.getElem?_eq_getElem hx] at hnd
      injection hnd with hnd
      rw [← hnd]
      exact hxf
    · exact h4 k hklt hk2 nd hnd
  | case3 x hx =>
    intro j hj
    rw [findStartFrom, dif_neg hx] at hj
    exact absurd hj (by simp)

theorem findStartFrom_complete (sibs : List HNode) (a : Nat) :
    ∀ i (_hai : a ≤ i) (hi : i < sibs.length),
      isStartNode sibs[i] = true →
      (∀ k, a ≤ k → k < i → ∀ nd, sibs[k]? = some nd → isStartNode nd = false) →
      findStartFrom sibs a = some i := by
  induction a using findStartFrom.induct sibs with
  | case1 x hx hstart =>
    intro i hai hi hstarti hmid
    rw [findStartFrom, dif_pos hx, if_pos hstart]
    rcases Nat.eq_or_lt_of_le hai with hk | hlt
    · rw [hk]
    · exfalso
      have hf := hmid x (Nat.le_refl x) hlt sibs[x] (List.getElem?_eq_getElem hx)
      rw [hf] at hstart
      exact Bool.false_ne_true hstart
  | case2 x hx hnstart ih =>
    intro i hai hi hstarti hmid
    rw [findStartFrom, dif_pos hx, if_neg hnstart]
    have hxi : x ≠ i := by
      rintro rfl
      exact hnstart hstarti
    exact ih i (by omega) hi hstarti
      (fun k hk1 hk2 nd hnd => hmid k (by omega) hk2 nd hnd)
  | case3 x hx =>
    intro i hai hi hstarti hmid
    exact absurd (Nat.lt_of_le_of_lt hai hi) hx

theorem prevStartBefore_spec (sibs : List HNode) :
    ∀ j i, prevStartBefore sibs j = some i →
      i < j ∧ i < sibs.length ∧
        (∀ nd, sibs[i]? = some nd → isStartNode nd = true) ∧
        (∀ k, i < k → k < j → ∀ nd, sibs[k]? = some nd → isStartNode nd = false) := by
  intro j
  induction j with
  | zero =>
    intro i hi
    exact absurd hi (by simp [prevStartBefore])
  | succ m ih =>
    intro i hi
    rw [prevStartBefore] at hi
    by_cases hm : m < sibs.length
    · rw [dif_pos hm] at hi
      by_cases hs : isStartNode sibs[m] = true
      · rw [if_pos hs] at hi
        injection hi with hmi
        subst hmi
        refine ⟨Nat.lt_succ_self m, hm, ?_, ?_⟩
        · intro nd hnd
          rw [List.getElem?_eq_getElem hm] at hnd
          injection hnd with hnd
          rw [← hnd]
          exact hs
        · intro k h1 h2 nd hnd
          exact absurd (Nat.lt_of_lt_of_le h1 (Nat.lt_succ_iff.mp h2)) (Nat.lt_irrefl m)
      · rw [if_neg hs] at hi
        obtain ⟨h1, h2, h3, h4⟩ := ih i hi
        have hsf : isStartNode sibs[m] = false := by simpa using hs
        refine ⟨by omega, h2, h3, ?_⟩
        intro k hk1 hk2 nd hnd
        by_cases hkm : k = m
        · subst hkm
          rw [List.getElem?_eq_getElem hm] at hnd
          injection hnd with hnd
          rw [← hnd]
          exact hsf
        · exact h4 k hk1 (by omega) nd hnd
    · rw [dif_neg hm] at hi
      exact absurd hi (by simp)

theorem prevStartBefore_complete (sibs : List HNode) :
    ∀ j i (_hij : i < j) (_hjlen : j ≤ sibs.length) (hi : i < sibs.length),
      isStartNode sibs[i] = true →
      (∀ k, i < k → k < j → ∀ nd, sibs[k]? = some nd → isStartNode nd = false) →
      prevStartBefore sibs j = some i := by
  intro j
  induction j with
  | zero =>
    intro i hij
    exact absurd hij (Nat.not_lt_zero i)
  | succ m ih =>
    intro i hij hlen hi hstarti hmid
    have hm : m < sibs.length := by omega
    rw [prevStartBefore, dif_pos hm]
    by_cases him : i = m
    · subst him
      rw [if_pos hstarti]
    · have hiltm : i < m := by omega
      have hns : isStartNode sibs[m] = false :=
        hmid m hiltm (Nat.lt_succ_self m) sibs[m] (List.getElem?_eq_getElem hm)
      rw [if_neg (by simp [hns])]
      exact ih i hiltm (by omega) hi hstarti
        (fun k h1 h2 nd hnd => hmid k h1 (by omega) nd hnd)



def sibs9 : List HNode := [c2a1, mkText "t", c2a2]

theorem C9_sibling_symmetry (sibs : List HNode) (d i : Nat)
    (hi : i < sibs.length) (hstart : isStartNode sibs[i] = true) :
    ((nextSibling sibs { document := some d, node := some i }).node ≠ none →
      previousSibling sibs (nextSibling sibs { document := some d, node := some i }) =
        { document := some d, node := some i }) ∧
    ((previousSibling sibs { document := some d, node := some i }).node ≠ none →
      nextSibling sibs (previousSibling sibs { document := some d, node := some i }) =
        { document := some d, node := some i }) ∧
    (∀ j nd, (nextSibling sibs { document := some d, node := some i }).node = some j →
      sibs[j]? = some nd → isStartNode nd = true) ∧
    (∀ j nd, (previousSibling sibs { document := some d, node := some i }).node = some j →
      sibs[j]? = some nd → isStartNode nd = true) := by
  have hgeti : sibs[i]? = some sibs[i] := List.getElem?_eq_getElem hi
  refine ⟨?_, ?_, ?_, ?_⟩
  · intro hne
    cases hn : findStartFrom sibs (i + 1) with
    | none =>
      exfalso
      apply hne
      simp [nextSibling, nextSiblingStartNode, hn, nullElement]
    | some j =>
      have hns : nextSibling sibs { document := some d, node := some i } =
          { document := some d, node := some j } := by
        simp [nextSibling, nextSiblingStartNode, hn]
      rw [hns]
      obtain ⟨h1, h2, h3, h4⟩ := findStartFrom_spec sibs (i + 1) j hn
      have hp : prevStartBefore sibs j = some i :=
        prevStartBefore_complete sibs j i (by omega) (by omega) hi hstart
          (fun k hk1 hk2 nd hnd => h4 k (by omega) hk2 nd hnd)
      simp [previousSibling, previousSiblingStartNode, hp]
  · intro hne
    cases hp : prevStartBefore sibs i with
    | none =>
      exfalso
      apply hne
      simp [previousSibling, previousSiblingStartNode, hp, nullElement]
    | some j =>
      have hps : previousSibling sibs { document := some d, node := some i } =
          { document := some d, node := some j } := by
        simp [previousSibling, previousSiblingStartNode, hp]
      rw [hps]
      obtain ⟨h1, h2, h3, h4⟩ := prevStartBefore_spec sibs i j hp
      have hn : findStartFrom sibs (j + 1) = some i :=
        findStartFrom_complete sibs (j + 1) i (by omega) hi hstart
          (fun k hk1 hk2 nd hnd => h4 k (by omega) hk2 nd hnd)
      simp [nextSibling, nextSiblingStartNode, hn]
  · intro j nd hj hnd
    cases hn : findStartFrom sibs (i + 1) with
    | none => simp [nextSibling, nextSiblingStartNode, hn, nullElement] at hj
    | some j2 =>
      simp [nextSibling, nextSiblingStartNode, hn] at hj
      subst hj
      exact (findStartFrom_spec sibs (i + 1) _ hn).2.2.1 nd hnd
  · intro j nd hj hnd
    cases hp : prevStartBefore sibs i with
    | none => simp [previousSibling, previousSiblingStartNode, hp, nullElement] at hj
    | some j2 =>
      simp [previousSibling, previousSiblingStartNode, hp] at hj
      subst hj
      exact (prevStartBefore_spec sibs i _ hp).2.2.1 nd hnd

theorem C9_witness :
    previousSibling sibs9 (nextSibling sibs9 { document := some 7, node := some 0 }) =
      { document := some 7, node := some 0 } :=
  (C9_sibling_symmetry sibs9 7 0 (by decide) (by decide)).1 (by
    have e0 : findStartFrom sibs9 1 = some 2 :=
      findStartFrom_complete sibs9 1 2 (by omega) (by decide) (by decide)
        (fun k hk1 hk2 nd hnd => by
          have hk : k = 1 := by omega
          subst hk
          simp [sibs9] at hnd
          subst hnd
          decide)
    simp [nextSibling, nextSiblingStartNode, e0])

end QHtmlParser
